import Mathlib

/-!
Verification development for the next-limitr rate limiter core.

Shallow embedding of:
- `MemoryStore` from src/src/storage/memory-store.ts (sliding-window hit counter);
- `AlertManager` from the alert manager module (breach-alert throttle);
- the `parseMs` duration helpers.

JS `Date.now()` instants and durations are embedded as `Int` (millisecond
epoch values; subtraction may go negative, so `Nat` would be wrong).
The JS `Map` is embedded as an insertion-ordered association list, with
`Map.get` / `Map.set` / `Map.delete` as `alGet` / `alSet` / `alDelete`
(`Map.set` on an existing key keeps its insertion position; a new key is
appended at the end, matching JS iteration order).
-/

namespace NextLimitr

/-- Association-list lookup, embedding `Map.get`. -/
def alGet {α : Type} : List (String × α) → String → Option α
  | [], _ => none
  | (k', v) :: rest, k => if k' = k then some v else alGet rest k

/-- Association-list update, embedding `Map.set`: an existing key keeps its
insertion position, a new key is appended at the end. -/
def alSet {α : Type} : List (String × α) → String → α → List (String × α)
  | [], k, v => [(k, v)]
  | (k', v') :: rest, k, v =>
    if k' = k then (k, v) :: rest else (k', v') :: alSet rest k v

/-- Association-list removal, embedding `Map.delete`. -/
def alDelete {α : Type} (m : List (String × α)) (k : String) : List (String × α) :=
  m.filter (fun p => decide (p.1 ≠ k))

/-- A per-key hit record, embedding the `HitRecord` interface of
memory-store.ts (`timestamps: number[]; resetTime: number`). -/
structure HitRecord where
  timestamps : List Int
  resetTime : Int
deriving DecidableEq

/-- The value returned by `MemoryStore.increment`, embedding `RateLimitInfo`. -/
structure RateLimitInfo where
  totalHits : Nat
  resetTime : Int
  exceeded : Bool
deriving DecidableEq

/-- The `MemoryStore` state: the `hits` map plus its construction
parameters. `cleanupInterval` embeds the nullable timer handle as a flag
(`true` = a periodic cleanup timer is installed). -/
structure MemoryStore where
  hits : List (String × HitRecord)
  windowMs : Int
  maxRequests : Nat
  cleanupInterval : Bool
deriving DecidableEq

/-- Embedding of `MemoryStore.increment(key)` evaluated at instant `now`
(`Date.now()` is passed explicitly). Follows the source line by line:
get-or-create the record, filter the log to entries strictly newer than
`now - windowMs`, push `now`, recompute `resetTime` from
`timestamps[0] || now` (the JS `||` treats the timestamp `0` as falsy,
which is modelled faithfully), and report
`exceeded = timestamps.length > maxRequests`. -/
def increment (s : MemoryStore) (key : String) (now : Int) :
    MemoryStore × RateLimitInfo :=
  let record := (alGet s.hits key).getD
    { timestamps := [], resetTime := now + s.windowMs }
  let windowStart := now - s.windowMs
  let filtered := record.timestamps.filter (fun t => decide (windowStart < t))
  let newTimestamps := filtered ++ [now]
  let oldestTimestamp :=
    match newTimestamps.head? with
    | some t => if t = 0 then now else t
    | none => now
  let resetTime := oldestTimestamp + s.windowMs
  let exceeded := decide (newTimestamps.length > s.maxRequests)
  let record' : HitRecord := { timestamps := newTimestamps, resetTime := resetTime }
  ({ s with hits := alSet s.hits key record' },
   { totalHits := newTimestamps.length, resetTime := resetTime,
     exceeded := exceeded })

/-- Embedding of `MemoryStore.decrement(key)`: pop the most recent timestamp
if the record exists and is non-empty. -/
def decrement (s : MemoryStore) (key : String) : MemoryStore :=
  match alGet s.hits key with
  | none => s
  | some record =>
    if 0 < record.timestamps.length then
      let record' : HitRecord := { record with timestamps := record.timestamps.dropLast }
      { s with hits := alSet s.hits key record' }
    else s

/-- Embedding of `MemoryStore.reset(key)`: delete the key's record. -/
def reset (s : MemoryStore) (key : String) : MemoryStore :=
  { s with hits := alDelete s.hits key }

/-- One record's fate during `cleanup`: filter the log to entries strictly
newer than `windowStart`; `none` means the record is deleted (its log became
empty); the length-comparison branch mirrors the source, which rewrites the
record only when the filter removed something. -/
def cleanupRecord (windowStart : Int) (r : HitRecord) : Option HitRecord :=
  if (r.timestamps.filter (fun t => decide (windowStart < t))).length = 0 then none
  else if (r.timestamps.filter (fun t => decide (windowStart < t))).length
      ≠ r.timestamps.length then
    some { r with timestamps := r.timestamps.filter (fun t => decide (windowStart < t)) }
  else some r

/-- One map entry's fate during `cleanup`, keyed form of `cleanupRecord`. -/
def cleanupStep (windowStart : Int) (p : String × HitRecord) :
    Option (String × HitRecord) :=
  (cleanupRecord windowStart p.2).map (fun r => (p.1, r))

/-- Embedding of `MemoryStore.cleanup()` evaluated at instant `now`: sweep
every key, deleting records whose filtered log is empty. -/
def cleanup (s : MemoryStore) (now : Int) : MemoryStore :=
  { s with hits := s.hits.filterMap (cleanupStep (now - s.windowMs)) }

/-- Embedding of `MemoryStore.shutdown()`: clear the periodic cleanup timer
handle; nothing else is touched. -/
def shutdown (s : MemoryStore) : MemoryStore :=
  { s with cleanupInterval := false }

/-- The timestamp log stored for a key (empty when the key is absent). -/
def keyTimestamps (hits : List (String × HitRecord)) (k : String) : List Int :=
  ((alGet hits k).map HitRecord.timestamps).getD []

/-- Iterate `increment` for one key over a list of call instants, keeping
only the evolving store. -/
def incrementSeq (s : MemoryStore) (k : String) (ts : List Int) : MemoryStore :=
  ts.foldl (fun st t => (increment st k t).1) s

theorem alGet_alSet_self {α : Type} (m : List (String × α)) (k : String) (v : α) :
    alGet (alSet m k v) k = some v := by
  induction m with
  | nil => simp [alGet, alSet]
  | cons p rest ih =>
    by_cases h : p.1 = k
    · simp [alSet, h, alGet]
    · simp [alSet, h, alGet, ih]

theorem mem_alSet {α : Type} (m : List (String × α)) (k : String) (v : α)
    (p : String × α) (hp : p ∈ alSet m k v) : p = (k, v) ∨ p ∈ m := by
  induction m with
  | nil => simpa [alSet] using hp
  | cons q rest ih =>
    by_cases h : q.1 = k
    · simp only [alSet, h, if_pos rfl] at hp
      rcases List.mem_cons.mp hp with h1 | h1
      · exact Or.inl h1
      · exact Or.inr (List.mem_cons_of_mem _ h1)
    · simp only [alSet, if_neg h] at hp
      rcases List.mem_cons.mp hp with h1 | h1
      · exact Or.inr (h1 ▸ List.mem_cons_self _ _)
      · rcases ih h1 with h2 | h2
        · exact Or.inl h2
        · exact Or.inr (List.mem_cons_of_mem _ h2)

theorem increment_windowMs (s : MemoryStore) (k : String) (now : Int) :
    (increment s k now).1.windowMs = s.windowMs := rfl

theorem increment_maxRequests (s : MemoryStore) (k : String) (now : Int) :
    (increment s k now).1.maxRequests = s.maxRequests := rfl

theorem keyTimestamps_increment (s : MemoryStore) (k : String) (now : Int) :
    keyTimestamps (increment s k now).1.hits k =
      (keyTimestamps s.hits k).filter (fun t => decide (now - s.windowMs < t))
        ++ [now] := by
  cases h : alGet s.hits k <;>
    simp [increment, keyTimestamps, h, alGet_alSet_self]

theorem totalHits_increment (s : MemoryStore) (k : String) (now : Int) :
    (increment s k now).2.totalHits =
      ((keyTimestamps s.hits k).filter
        (fun t => decide (now - s.windowMs < t))).length + 1 := by
  cases h : alGet s.hits k <;>
    simp [increment, keyTimestamps, h]

theorem exceeded_increment (s : MemoryStore) (k : String) (now : Int) :
    (increment s k now).2.exceeded
      = decide ((increment s k now).2.totalHits > s.maxRequests) := rfl

theorem incrementSeq_cons (s : MemoryStore) (k : String) (t : Int) (ts : List Int) :
    incrementSeq s k (t :: ts) = incrementSeq (increment s k t).1 k ts := rfl

theorem incrementSeq_windowMs (k : String) (ts : List Int) :
    ∀ s : MemoryStore, (incrementSeq s k ts).windowMs = s.windowMs := by
  induction ts with
  | nil => intro s; rfl
  | cons t rest ih =>
    intro s
    rw [incrementSeq_cons, ih, increment_windowMs]

theorem incrementSeq_maxRequests (k : String) (ts : List Int) :
    ∀ s : MemoryStore, (incrementSeq s k ts).maxRequests = s.maxRequests := by
  induction ts with
  | nil => intro s; rfl
  | cons t rest ih =>
    intro s
    rw [incrementSeq_cons, ih, increment_maxRequests]

/-- Iterating `increment` over call instants that all fall inside one
another's windows simply appends the instants to the key's log: the
in-window sweep removes nothing. -/
theorem keyTimestamps_incrementSeq (k : String) (ts : List Int) :
    ∀ s : MemoryStore,
      (∀ a ∈ keyTimestamps s.hits k, ∀ b ∈ ts, b - s.windowMs < a) →
      (∀ a ∈ ts, ∀ b ∈ ts, b - s.windowMs < a) →
      keyTimestamps (incrementSeq s k ts).hits k = keyTimestamps s.hits k ++ ts := by
  induction ts with
  | nil => intro s _ _; simp [incrementSeq]
  | cons t rest ih =>
    intro s hpre hall
    rw [incrementSeq_cons]
    have hfil : (keyTimestamps s.hits k).filter
        (fun a => decide (t - s.windowMs < a)) = keyTimestamps s.hits k := by
      rw [List.filter_eq_self]
      intro a ha
      simpa using hpre a ha t (List.mem_cons_self _ _)
    have hstep : keyTimestamps (increment s k t).1.hits k
        = keyTimestamps s.hits k ++ [t] := by
      rw [keyTimestamps_increment, hfil]
    have hW : (increment s k t).1.windowMs = s.windowMs := increment_windowMs s k t
    have hrec := ih (increment s k t).1
      (by
        rw [hstep, hW]
        intro a ha b hb
        rcases List.mem_append.mp ha with h1 | h1
        · exact hpre a h1 b (List.mem_cons_of_mem _ hb)
        · have : a = t := by simpa using h1
          subst this
          exact hall a (List.mem_cons_self _ _) b (List.mem_cons_of_mem _ hb))
      (by
        rw [hW]
        intro a ha b hb
        exact hall a (List.mem_cons_of_mem _ ha) b (List.mem_cons_of_mem _ hb))
    rw [hrec, hstep, List.append_assoc, List.singleton_append]

/-- C1: with `maxRequests = N ≥ 1`, calls to `increment(k)` that all fall
within one window return `exceeded = false` with `totalHits` equal to the
call index for the first `N` calls, and `exceeded = true` from the
`(N+1)`-th call on: the `(i+1)`-th call returns `totalHits = i + 1` and
`exceeded = (i + 1 > N)`; and in general every `increment` call returns
`exceeded = (totalHits > maxRequests)`, strict greater-than. -/
theorem increment_threshold_behavior (s : MemoryStore) (k : String)
    (ts : List Int) (i : Nat) (hi : i < ts.length)
    (hN : 1 ≤ s.maxRequests)
    (habs : alGet s.hits k = none)
    (hwin : ∀ a ∈ ts, ∀ b ∈ ts, b - s.windowMs < a) :
    ((increment (incrementSeq s k (ts.take i)) k (ts.get ⟨i, hi⟩)).2.totalHits
        = i + 1 ∧
      (increment (incrementSeq s k (ts.take i)) k (ts.get ⟨i, hi⟩)).2.exceeded
        = decide (i + 1 > s.maxRequests)) ∧
    ∀ (s' : MemoryStore) (k' : String) (now' : Int),
      (increment s' k' now').2.exceeded
        = decide ((increment s' k' now').2.totalHits > s'.maxRequests) := by
  have hempty : keyTimestamps s.hits k = [] := by
    simp [keyTimestamps, habs]
  have htake : keyTimestamps (incrementSeq s k (ts.take i)).hits k = ts.take i := by
    have := keyTimestamps_incrementSeq k (ts.take i) s
      (by rw [hempty]; intro a ha; exact absurd ha (List.not_mem_nil a))
      (by
        intro a ha b hb
        exact hwin a (List.take_subset i ts ha) b (List.take_subset i ts hb))
    rw [hempty] at this
    simpa using this
  have hWseq : (incrementSeq s k (ts.take i)).windowMs = s.windowMs :=
    incrementSeq_windowMs k (ts.take i) s
  have hMseq : (incrementSeq s k (ts.take i)).maxRequests = s.maxRequests :=
    incrementSeq_maxRequests k (ts.take i) s
  have hmemi : ts.get ⟨i, hi⟩ ∈ ts := List.get_mem ts i hi
  have hfil : (ts.take i).filter
      (fun t => decide (ts.get ⟨i, hi⟩ - (incrementSeq s k (ts.take i)).windowMs < t))
        = ts.take i := by
    rw [List.filter_eq_self]
    intro a ha
    rw [hWseq]
    simpa using hwin a (List.take_subset i ts ha) (ts.get ⟨i, hi⟩) hmemi
  have hlen : (ts.take i).length = i := by
    rw [List.length_take]
    omega
  have hhits : (increment (incrementSeq s k (ts.take i)) k (ts.get ⟨i, hi⟩)).2.totalHits
      = i + 1 := by
    rw [totalHits_increment, htake, hfil, hlen]
  refine ⟨⟨hhits, ?_⟩, fun s' k' now' => exceeded_increment s' k' now'⟩
  rw [exceeded_increment, hhits, hMseq]

/-- Concrete run of C1: `maxRequests = 2`, window 10, calls at instants
0, 1, 2; the third call reports `totalHits = 3` and is exceeded. -/
theorem increment_threshold_behavior_witness :
    (increment (incrementSeq
        { hits := [], windowMs := 10, maxRequests := 2, cleanupInterval := true }
        "k" ([0, 1, 2].take 2)) "k" ([0, 1, 2].get ⟨2, by decide⟩)).2.totalHits
      = 3 ∧
    (increment (incrementSeq
        { hits := [], windowMs := 10, maxRequests := 2, cleanupInterval := true }
        "k" ([0, 1, 2].take 2)) "k" ([0, 1, 2].get ⟨2, by decide⟩)).2.exceeded
      = true :=
  (increment_threshold_behavior
    { hits := [], windowMs := 10, maxRequests := 2, cleanupInterval := true }
    "k" [0, 1, 2] 2 (by decide) (by decide) (by decide) (by decide)).1

/-- C2: a timestamp `t0` recorded for key `k` is gone from the log, and so
does not count toward `totalHits`, for any `increment(k)` call at an
instant `now ≥ t0 + windowMs` — the retention filter keeps only
timestamps strictly greater than `now - windowMs`, so a request exactly
`windowMs` old is expired. -/
theorem increment_window_expiry (s : MemoryStore) (k : String) (now t0 : Int)
    (hW : 1 ≤ s.windowMs) (ht : t0 + s.windowMs ≤ now) :
    t0 ∉ keyTimestamps (increment s k now).1.hits k ∧
    (increment s k now).2.totalHits
      = (keyTimestamps (increment s k now).1.hits k).length := by
  constructor
  · rw [keyTimestamps_increment]
    intro hmem
    rcases List.mem_append.mp hmem with h | h
    · have := List.of_mem_filter h
      simp only [decide_eq_true_eq] at this
      omega
    · have : t0 = now := by simpa using h
      omega
  · rw [totalHits_increment, keyTimestamps_increment]
    simp

/-- Concrete run of C2: window 10, a hit recorded at instant 0 is absent
from the log seen by a call at instant 10. -/
theorem increment_window_expiry_witness :
    (0 : Int) ∉ keyTimestamps (increment
      { hits := [("k", { timestamps := [0], resetTime := 10 })],
        windowMs := 10, maxRequests := 2, cleanupInterval := true }
      "k" 10).1.hits "k" ∧
    (increment
      { hits := [("k", { timestamps := [0], resetTime := 10 })],
        windowMs := 10, maxRequests := 2, cleanupInterval := true }
      "k" 10).2.totalHits
      = (keyTimestamps (increment
      { hits := [("k", { timestamps := [0], resetTime := 10 })],
        windowMs := 10, maxRequests := 2, cleanupInterval := true }
      "k" 10).1.hits "k").length :=
  increment_window_expiry
    { hits := [("k", { timestamps := [0], resetTime := 10 })],
      windowMs := 10, maxRequests := 2, cleanupInterval := true }
    "k" 10 0 (by decide) (by decide)

/-- Boolean check: no timestamp in the record is older than `ws`
(claim C5's "contains no instant older than `now - W`"). -/
def recordNoneOlder (ws : Int) (r : HitRecord) : Bool :=
  r.timestamps.all (fun t => decide (ws ≤ t))

/-- Boolean check over the whole `hits` map: no record holds a timestamp
older than `ws`. -/
def hitsNoneOlder (ws : Int) (hits : List (String × HitRecord)) : Bool :=
  hits.all (fun p => recordNoneOlder ws p.2)

/-- Boolean check for a single key's record (vacuously true when absent). -/
def keyNoneOlder (ws : Int) (hits : List (String × HitRecord)) (k : String) : Bool :=
  (keyTimestamps hits k).all (fun t => decide (ws ≤ t))

/-- C5 fails as stated: `increment(k)` sweeps only key `k`'s log. After a
hit for "a" at instant 0 and then a hit for "b" at instant 100 with
window 10, the call returning at `now = 100` leaves record "a" holding
the stale instant 0, older than `now - windowMs = 90`. -/
theorem sweep_invariant_counterexample :
    hitsNoneOlder (100 - 10)
      (increment (increment
        { hits := [], windowMs := 10, maxRequests := 100, cleanupInterval := true }
        "a" 0).1 "b" 100).1.hits = false := by decide

theorem cleanupRecord_some_timestamps (ws : Int) (r r' : HitRecord)
    (h : cleanupRecord ws r = some r') :
    r'.timestamps = r.timestamps.filter (fun t => decide (ws < t)) := by
  unfold cleanupRecord at h
  split at h
  · exact absurd h (by simp)
  · split at h
    · cases h
      rfl
    · cases h
      rename_i hlen0 hlen
      have hlen' : (r.timestamps.filter (fun t => decide (ws < t))).length
          = r.timestamps.length := by omega
      exact ((List.filter_sublist _).eq_of_length hlen').symm

theorem cleanupRecord_some_ne_nil (ws : Int) (r r' : HitRecord)
    (h : cleanupRecord ws r = some r') :
    r'.timestamps.length ≠ 0 := by
  have hts := cleanupRecord_some_timestamps ws r r' h
  unfold cleanupRecord at h
  split at h
  · exact absurd h (by simp)
  · rename_i hlen0
    rw [hts]
    exact hlen0

/-- C5, amended: after `increment(k)` at instant `now`, the touched key's
record contains no instant older than `now - windowMs`; after `cleanup()`
at instant `now`, no record at all does. (The original claim asserted the
former for every record, which `increment` does not guarantee.) -/
theorem sweep_invariant_amended (s : MemoryStore) (k : String) (now : Int)
    (hW : 1 ≤ s.windowMs) :
    keyNoneOlder (now - s.windowMs) (increment s k now).1.hits k = true ∧
    hitsNoneOlder (now - s.windowMs) (cleanup s now).hits = true := by
  constructor
  · rw [keyNoneOlder, keyTimestamps_increment, List.all_append]
    refine (Bool.and_eq_true _ _).mpr ⟨?_, by simp; omega⟩
    rw [List.all_eq_true]
    intro t htmem
    have := List.of_mem_filter htmem
    simp only [decide_eq_true_eq] at this ⊢
    omega
  · rw [hitsNoneOlder, List.all_eq_true]
    intro p hp
    simp only [cleanup, cleanupStep, List.mem_filterMap, Option.map_eq_some'] at hp
    obtain ⟨q, hq, r', hr', hpq⟩ := hp
    have hts := cleanupRecord_some_timestamps (now - s.windowMs) q.2 r' hr'
    rw [← hpq]
    rw [recordNoneOlder, List.all_eq_true]
    intro t htmem
    rw [hts] at htmem
    have := List.of_mem_filter htmem
    simp only [decide_eq_true_eq] at this ⊢
    omega

/-- Concrete run of the amended C5: window 10, a call for "k" at instant
100 sweeps "k"'s log, and `cleanup` at instant 100 sweeps every record. -/
theorem sweep_invariant_amended_witness :
    keyNoneOlder (100 - 10)
      (increment
        { hits := [("k", { timestamps := [0, 95], resetTime := 10 }),
                   ("z", { timestamps := [0], resetTime := 10 })],
          windowMs := 10, maxRequests := 2, cleanupInterval := true }
        "k" 100).1.hits "k" = true ∧
    hitsNoneOlder (100 - 10)
      (cleanup
        { hits := [("k", { timestamps := [0, 95], resetTime := 10 }),
                   ("z", { timestamps := [0], resetTime := 10 })],
          windowMs := 10, maxRequests := 2, cleanupInterval := true }
        100).hits = true :=
  sweep_invariant_amended
    { hits := [("k", { timestamps := [0, 95], resetTime := 10 }),
               ("z", { timestamps := [0], resetTime := 10 })],
      windowMs := 10, maxRequests := 2, cleanupInterval := true }
    "k" 100 (by decide)

/-- C8 fails as stated: with `windowMs = 0` and `maxRequests = 1`, a call
to `increment` returns `exceeded = false`, not `true` — and it stays
`false` on repeated calls, because a zero-length window empties the log
on every call, so `totalHits` is always 1. -/
theorem zero_window_counterexample :
    (increment
      { hits := [], windowMs := 0, maxRequests := 1, cleanupInterval := true }
      "k" 5).2.exceeded = false ∧
    (increment (increment
      { hits := [], windowMs := 0, maxRequests := 1, cleanupInterval := true }
      "k" 5).1 "k" 5).2.exceeded = false ∧
    (increment (increment
      { hits := [], windowMs := 0, maxRequests := 1, cleanupInterval := true }
      "k" 5).1 "k" 6).2.exceeded = false := by decide

/-- C8, amended: with `windowMs = 0`, provided the key's stored timestamps
are not in the future (`≤ now`, as real `Date.now()` instants are), every
`increment` call returns `totalHits = 1` and — for `maxRequests ≥ 1` —
`exceeded = false`: a zero-length window disables limiting entirely
rather than making every request exceed the threshold. -/
theorem zero_window_amended (s : MemoryStore) (k : String) (now : Int)
    (hW : s.windowMs = 0) (hN : 1 ≤ s.maxRequests)
    (hts : (keyTimestamps s.hits k).all (fun t => decide (t ≤ now)) = true) :
    (increment s k now).2.totalHits = 1 ∧
    (increment s k now).2.exceeded = false := by
  have hfil : (keyTimestamps s.hits k).filter
      (fun t => decide (now - s.windowMs < t)) = [] := by
    rw [List.filter_eq_nil_iff]
    intro t htmem
    rw [List.all_eq_true] at hts
    have := hts t htmem
    simp only [decide_eq_true_eq] at this ⊢
    omega
  have h1 : (increment s k now).2.totalHits = 1 := by
    rw [totalHits_increment, hfil]
    rfl
  refine ⟨h1, ?_⟩
  rw [exceeded_increment, h1]
  simp
  omega

/-- Concrete run of the amended C8: `windowMs = 0`, `maxRequests = 1`, one
prior hit at instant 5; a call at instant 5 still reports a single hit
and is not exceeded. -/
theorem zero_window_amended_witness :
    (increment
      { hits := [("k", { timestamps := [5], resetTime := 5 })],
        windowMs := 0, maxRequests := 1, cleanupInterval := true }
      "k" 5).2.totalHits = 1 ∧
    (increment
      { hits := [("k", { timestamps := [5], resetTime := 5 })],
        windowMs := 0, maxRequests := 1, cleanupInterval := true }
      "k" 5).2.exceeded = false :=
  zero_window_amended
    { hits := [("k", { timestamps := [5], resetTime := 5 })],
      windowMs := 0, maxRequests := 1, cleanupInterval := true }
    "k" 5 (by decide) (by decide) (by decide)

theorem cleanupRecord_idem (ws : Int) (r r' : HitRecord)
    (h : cleanupRecord ws r = some r') :
    cleanupRecord ws r' = some r' := by
  have hts := cleanupRecord_some_timestamps ws r r' h
  have hne := cleanupRecord_some_ne_nil ws r r' h
  have hself : r'.timestamps.filter (fun t => decide (ws < t)) = r'.timestamps := by
    rw [List.filter_eq_self]
    intro a ha
    rw [hts] at ha
    exact (List.mem_filter.mp ha).2
  unfold cleanupRecord
  rw [hself]
  simp [hne]

/-- C9: `cleanup` is idempotent — sweeping twice at the same instant with
no intervening calls yields exactly the same store as sweeping once. -/
theorem cleanup_idempotent (s : MemoryStore) (now : Int) :
    cleanup (cleanup s now) now = cleanup s now := by
  show ({ s with hits := (s.hits.filterMap (cleanupStep (now - s.windowMs))).filterMap (cleanupStep (now - s.windowMs)) } : MemoryStore) = { s with hits := s.hits.filterMap (cleanupStep (now - s.windowMs)) }
  rw [List.filterMap_filterMap]
  congr 1
  apply List.filterMap_congr
  intro p _
  cases hcr : cleanupRecord (now - s.windowMs) p.2 with
  | none => simp [cleanupStep, hcr]
  | some r' =>
    simp [cleanupStep, hcr, cleanupRecord_idem (now - s.windowMs) p.2 r' hcr]

/-- C10: `shutdown` only clears the periodic cleanup timer; the `hits` map
is untouched and subsequent `increment` / `decrement` / `reset` /
`cleanup` calls behave exactly as if `shutdown` had never been called. -/
theorem shutdown_frame (s : MemoryStore) (k : String) (now : Int) :
    (shutdown s).hits = s.hits ∧
    (increment (shutdown s) k now).2 = (increment s k now).2 ∧
    (increment (shutdown s) k now).1.hits = (increment s k now).1.hits ∧
    (decrement (shutdown s) k).hits = (decrement s k).hits ∧
    (reset (shutdown s) k).hits = (reset s k).hits ∧
    (cleanup (shutdown s) now).hits = (cleanup s now).hits := by
  refine ⟨rfl, rfl, rfl, ?_, rfl, rfl⟩
  unfold decrement shutdown
  cases alGet s.hits k with
  | none => rfl
  | some record =>
    by_cases h : 0 < record.timestamps.length <;> simp [h]

/-- A per-key breach record, embedding the `BreachRecord` interface of the
alert manager (`count` is the lifetime counter, never reset on alert). -/
structure BreachRecord where
  count : Nat
  firstBreach : Int
  recentBreaches : List Int
deriving DecidableEq

/-- Optional request context passed to `recordBreach`. -/
structure ReqInfo where
  method : String
  path : String
deriving DecidableEq

/-- The alert payload, embedding `AlertData`. -/
structure AlertData where
  key : String
  breachCount : Nat
  timestamp : Int
  request : Option ReqInfo
deriving DecidableEq

/-- The merged alerting options, embedding `Required<AlertingOptions>`:
`hasHandler` records whether a caller-supplied custom handler is present. -/
structure AlertingOptions where
  threshold : Nat
  windowMs : Int
  consoleLog : Bool
  webhookUrl : String
  hasHandler : Bool
deriving DecidableEq

/-- The `AlertManager` state: the `breaches` map plus the merged options. -/
structure AlertManager where
  breaches : List (String × BreachRecord)
  options : AlertingOptions
deriving DecidableEq

/-- Embedding of `AlertManager.recordBreach(key, req)` evaluated at instant
`now`, with the notification side effect abstracted into the returned
`Option AlertData` (`some` exactly when the threshold check fired the
alert): get-or-create the record, filter `recentBreaches` to instants
strictly newer than `now - windowMs`, push `now`, bump the lifetime
counter, and when the filtered log's length reaches the threshold fire the
alert and clear `recentBreaches`. -/
def recordBreach (m : AlertManager) (k : String) (now : Int)
    (req : Option ReqInfo) : AlertManager × Option AlertData :=
  let record := (alGet m.breaches k).getD
    { count := 0, firstBreach := now, recentBreaches := [] }
  let recent' := record.recentBreaches.filter
    (fun t => decide (now - m.options.windowMs < t)) ++ [now]
  let count' := record.count + 1
  if m.options.threshold ≤ recent'.length then
    let record' : BreachRecord :=
      { count := count', firstBreach := record.firstBreach, recentBreaches := [] }
    ({ m with breaches := alSet m.breaches k record' },
     some { key := k, breachCount := count', timestamp := now, request := req })
  else
    let record' : BreachRecord :=
      { count := count', firstBreach := record.firstBreach, recentBreaches := recent' }
    ({ m with breaches := alSet m.breaches k record' }, none)

/-- The recent-breach log stored for a key (empty when the key is absent). -/
def keyRecent (breaches : List (String × BreachRecord)) (k : String) : List Int :=
  ((alGet breaches k).map BreachRecord.recentBreaches).getD []

/-- Iterate `recordBreach` for one key over a list of breach instants. -/
def recordBreachSeq (m : AlertManager) (k : String) (ts : List Int) : AlertManager :=
  ts.foldl (fun st t => (recordBreach st k t none).1) m

theorem recordBreach_options (m : AlertManager) (k : String) (now : Int)
    (req : Option ReqInfo) :
    (recordBreach m k now req).1.options = m.options := by
  simp only [recordBreach]
  split <;> rfl

theorem getD_recentBreaches (m : AlertManager) (k : String) (now : Int) :
    ((alGet m.breaches k).getD
      { count := 0, firstBreach := now, recentBreaches := [] }).recentBreaches
    = keyRecent m.breaches k := by
  cases h : alGet m.breaches k <;> simp [keyRecent, h]

theorem keyRecent_recordBreach (m : AlertManager) (k : String) (now : Int)
    (req : Option ReqInfo) :
    keyRecent (recordBreach m k now req).1.breaches k
      = (if m.options.threshold ≤ ((keyRecent m.breaches k).filter
            (fun t => decide (now - m.options.windowMs < t))).length + 1
         then []
         else (keyRecent m.breaches k).filter
            (fun t => decide (now - m.options.windowMs < t)) ++ [now]) ∧
    (recordBreach m k now req).2.isSome
      = decide (m.options.threshold ≤ ((keyRecent m.breaches k).filter
          (fun t => decide (now - m.options.windowMs < t))).length + 1) := by
  simp only [recordBreach, getD_recentBreaches, List.length_append,
    List.length_cons, List.length_nil, Nat.zero_add]
  split <;> simp_all [keyRecent, alGet_alSet_self]

theorem recordBreachSeq_cons (m : AlertManager) (k : String) (t : Int)
    (ts : List Int) :
    recordBreachSeq m k (t :: ts) = recordBreachSeq (recordBreach m k t none).1 k ts := rfl

theorem recordBreachSeq_options (k : String) (ts : List Int) :
    ∀ m : AlertManager, (recordBreachSeq m k ts).options = m.options := by
  induction ts with
  | nil => intro m; rfl
  | cons t rest ih =>
    intro m
    rw [recordBreachSeq_cons, ih, recordBreach_options]

theorem succ_mod_eq (j T : Nat) (hT : 0 < T) :
    (j + 1) % T = if j % T + 1 = T then 0 else j % T + 1 := by
  have hd := Nat.div_add_mod j T
  have hlt : j % T < T := Nat.mod_lt _ hT
  by_cases hc : j % T + 1 = T
  · rw [if_pos hc]
    have h2 : j + 1 = T * (j / T + 1) := by
      rw [Nat.mul_add, Nat.mul_one]
      omega
    rw [h2, Nat.mul_mod_right]
  · rw [if_neg hc]
    have h1 : j % T + 1 < T := by omega
    have h2 : j + 1 = T * (j / T) + (j % T + 1) := by omega
    rw [h2, Nat.mul_add_mod]
    exact Nat.mod_eq_of_lt h1

theorem reach_iff_dvd (j T : Nat) (hT : 0 < T) :
    T ≤ j % T + 1 ↔ T ∣ (j + 1) := by
  have hlt : j % T < T := Nat.mod_lt _ hT
  have hs := succ_mod_eq j T hT
  constructor
  · intro h
    have hc : j % T + 1 = T := by omega
    rw [if_pos hc] at hs
    exact Nat.dvd_of_mod_eq_zero hs
  · intro h
    by_contra hnot
    have hc : ¬ (j % T + 1 = T) := by omega
    rw [if_neg hc] at hs
    have h0 : (j + 1) % T = 0 := Nat.mod_eq_zero_of_dvd h
    omega

/-- Iterating `recordBreach` over breach instants that all fall inside one
another's alert windows leaves the key's recent log with `j mod threshold`
entries after `j` calls, each entry one of the call instants. -/
theorem keyRecent_recordBreachSeq (k : String) (tsAll : List Int) (ts : List Int) :
    ∀ (m : AlertManager) (j : Nat),
      0 < m.options.threshold →
      (∀ b ∈ ts, b ∈ tsAll) →
      (∀ a ∈ tsAll, ∀ b ∈ tsAll, b - m.options.windowMs < a) →
      (keyRecent m.breaches k).length = j % m.options.threshold →
      (∀ a ∈ keyRecent m.breaches k, a ∈ tsAll) →
      (keyRecent (recordBreachSeq m k ts).breaches k).length
          = (j + ts.length) % m.options.threshold ∧
      (∀ a ∈ keyRecent (recordBreachSeq m k ts).breaches k, a ∈ tsAll) := by
  induction ts with
  | nil =>
    intro m j hT hsub hwin hlen hmem
    exact ⟨by simpa [recordBreachSeq] using hlen, by simpa [recordBreachSeq] using hmem⟩
  | cons t rest ih =>
    intro m j hT hsub hwin hlen hmem
    rw [recordBreachSeq_cons]
    have htmem : t ∈ tsAll := hsub t (List.mem_cons_self _ _)
    have hfil : (keyRecent m.breaches k).filter
        (fun a => decide (t - m.options.windowMs < a)) = keyRecent m.breaches k := by
      rw [List.filter_eq_self]
      intro a ha
      simpa using hwin a (hmem a ha) t htmem
    have hchar := keyRecent_recordBreach m k t none
    have hopts := recordBreach_options m k t none
    have hmodlt : j % m.options.threshold < m.options.threshold := Nat.mod_lt _ hT
    have hstepmem : ∀ a ∈ keyRecent (recordBreach m k t none).1.breaches k, a ∈ tsAll := by
      intro a ha
      rw [hchar.1, hfil, hlen] at ha
      split at ha
      · exact absurd ha (List.not_mem_nil a)
      · rcases List.mem_append.mp ha with h1 | h1
        · exact hmem a h1
        · have : a = t := by simpa using h1
          exact this ▸ htmem
    have hsteplen : (keyRecent (recordBreach m k t none).1.breaches k).length
        = (j + 1) % m.options.threshold := by
      rw [hchar.1, hfil, hlen, succ_mod_eq j m.options.threshold hT]
      by_cases hc : j % m.options.threshold + 1 = m.options.threshold
      · rw [if_pos (by omega), if_pos hc]
        rfl
      · rw [if_neg (by omega), if_neg hc]
        simpa using hlen
    have := ih (recordBreach m k t none).1 (j + 1)
      (by rw [hopts]; exact hT)
      (fun b hb => hsub b (List.mem_cons_of_mem _ hb))
      (by rw [hopts]; exact hwin)
      (by rw [hopts]; exact hsteplen)
      hstepmem
    rw [hopts] at this
    refine ⟨?_, this.2⟩
    rw [this.1]
    congr 1
    simp [Nat.add_assoc, Nat.add_comm 1 rest.length]

/-- C3: with `threshold = T ≥ 1` and breach calls all within one alert
window on a fresh key, the alert fires exactly once per `T` accumulated
breaches: the `(i+1)`-th call fires the alert exactly when `T` divides
`i + 1` — no alert on calls `1..T-1`, one on the `T`-th (after which the
recent log is cleared), none on `T+1..2T-1`, one on the `2T`-th, and so on. -/
theorem recordBreach_edge_trigger (m : AlertManager) (k : String)
    (ts : List Int) (i : Nat) (hi : i < ts.length)
    (hT : 1 ≤ m.options.threshold)
    (habs : alGet m.breaches k = none)
    (hwin : ∀ a ∈ ts, ∀ b ∈ ts, b - m.options.windowMs < a) :
    ((recordBreach (recordBreachSeq m k (ts.take i)) k (ts.get ⟨i, hi⟩) none).2).isSome
      = decide (m.options.threshold ∣ (i + 1)) := by
  have hT0 : 0 < m.options.threshold := hT
  have hempty : keyRecent m.breaches k = [] := by
    simp [keyRecent, habs]
  have hseq := keyRecent_recordBreachSeq k ts (ts.take i) m 0 hT0
    (fun b hb => List.take_subset i ts hb)
    hwin
    (by rw [hempty]; simp)
    (by rw [hempty]; intro a ha; exact absurd ha (List.not_mem_nil a))
  have hlen' : (ts.take i).length = i := by
    rw [List.length_take]
    omega
  rw [hlen'] at hseq
  have hopts := recordBreachSeq_options k (ts.take i) m
  have hchar := keyRecent_recordBreach (recordBreachSeq m k (ts.take i)) k
    (ts.get ⟨i, hi⟩) none
  have hmemi : ts.get ⟨i, hi⟩ ∈ ts := List.get_mem ts i hi
  have hfil : (keyRecent (recordBreachSeq m k (ts.take i)).breaches k).filter
      (fun t => decide (ts.get ⟨i, hi⟩
        - (recordBreachSeq m k (ts.take i)).options.windowMs < t))
      = keyRecent (recordBreachSeq m k (ts.take i)).breaches k := by
    rw [List.filter_eq_self]
    intro a ha
    rw [hopts]
    simpa using hwin a (hseq.2 a ha) (ts.get ⟨i, hi⟩) hmemi
  rw [hchar.2, hfil, hopts, hseq.1]
  simp only [Nat.zero_add]
  exact decide_eq_decide.mpr (reach_iff_dvd i m.options.threshold hT0)

/-- Concrete run of C3: `threshold = 2`, four breaches at instants 0..3
inside a 100ms window; the second call (index 1) fires the alert. -/
theorem recordBreach_edge_trigger_witness :
    ((recordBreach (recordBreachSeq
        { breaches := [],
          options := { threshold := 2, windowMs := 100, consoleLog := true,
                       webhookUrl := "", hasHandler := false } }
        "k" ([0, 1, 2, 3].take 1)) "k" ([0, 1, 2, 3].get ⟨1, by decide⟩) none).2).isSome
      = true :=
  recordBreach_edge_trigger
    { breaches := [],
      options := { threshold := 2, windowMs := 100, consoleLog := true,
                   webhookUrl := "", hasHandler := false } }
    "k" [0, 1, 2, 3] 1 (by decide) (by decide) (by decide) (by decide)

/-- Boolean form of the alerter state invariant of C6: every stored record's
recent-breach log is strictly shorter than the threshold. -/
def breachInv (m : AlertManager) : Bool :=
  m.breaches.all (fun p => decide (p.2.recentBreaches.length < m.options.threshold))

theorem recordBreach_new_record (m : AlertManager) (k : String) (now : Int)
    (req : Option ReqInfo) (hT : 1 ≤ m.options.threshold) :
    ∀ p ∈ (recordBreach m k now req).1.breaches,
      p ∈ m.breaches ∨ p.2.recentBreaches.length < m.options.threshold := by
  simp only [recordBreach]
  split
  · intro p hp
    rcases mem_alSet _ _ _ p hp with h | h
    · right
      rw [h]
      simpa using hT
    · exact Or.inl h
  · intro p hp
    rcases mem_alSet _ _ _ p hp with h | h
    · right
      rw [h]
      rename_i hc
      simp only [not_le] at hc
      simpa using hc
    · exact Or.inl h

/-- C6: for `threshold = T ≥ 1` the alerter state invariant
`recentBreaches.length < T` (for every stored record) is preserved by
every `recordBreach` call: the call whose appended breach would reach or
exceed `T` fires the alert and clears the log before returning. It holds
of the initial empty state, so it holds after any call returns. -/
theorem recordBreach_length_invariant (m : AlertManager) (k : String)
    (now : Int) (req : Option ReqInfo)
    (hT : 1 ≤ m.options.threshold) (hinv : breachInv m = true) :
    breachInv (recordBreach m k now req).1 = true := by
  rw [breachInv, List.all_eq_true]
  intro p hp
  rw [recordBreach_options]
  rcases recordBreach_new_record m k now req hT p hp with h | h
  · rw [breachInv, List.all_eq_true] at hinv
    exact hinv p h
  · simpa using h

/-- Concrete run of C6: `threshold = 2`, a stored record with one recent
breach; a further breach for it fires and clears, keeping the invariant. -/
theorem recordBreach_length_invariant_witness :
    breachInv (recordBreach
      { breaches := [("a", { count := 3, firstBreach := 0, recentBreaches := [5] })],
        options := { threshold := 2, windowMs := 100, consoleLog := true,
                     webhookUrl := "", hasHandler := false } }
      "a" 6 none).1 = true :=
  recordBreach_length_invariant
    { breaches := [("a", { count := 3, firstBreach := 0, recentBreaches := [5] })],
      options := { threshold := 2, windowMs := 100, consoleLog := true,
                   webhookUrl := "", hasHandler := false } }
    "a" 6 none (by decide) (by decide)

/-- Environment-supplied outcome of the webhook `fetch` call: a 2xx
response, a non-success response with its status, or a network failure. -/
inductive FetchOutcome
  | success
  | httpError (status : Nat)
  | networkError (msg : String)
deriving DecidableEq

/-- The body of `sendWebhook`'s `try` block: `await fetch(...)` (a network
failure rejects) followed by `if (!response.ok) throw ...`. An `error`
value is an exception in flight. -/
def webhookFetch (fo : FetchOutcome) : Except String Unit :=
  match fo with
  | FetchOutcome.success => Except.ok ()
  | FetchOutcome.httpError status =>
    Except.error ("Webhook request failed with status " ++ toString status)
  | FetchOutcome.networkError msg => Except.error msg

/-- Embedding of `AlertManager.sendWebhook`: the early return on an empty
`webhookUrl`, then the `try`/`catch` that turns any exception into a
logged `console.error` line. The result is the list of error-log lines;
the `Except` layer shows that no exception leaves this function. -/
def sendWebhook (url : String) (fo : FetchOutcome) : Except String (List String) :=
  if url = "" then Except.ok []
  else
    match webhookFetch fo with
    | Except.ok _ => Except.ok []
    | Except.error e => Except.ok ["Error sending webhook alert: " ++ e]

/-- The `try`/`catch` around the caller-supplied custom handler inside
`triggerAlert`: an exception or rejection is caught and logged. -/
def handlerAttempt (ho : Except String Unit) : List String :=
  match ho with
  | Except.ok _ => []
  | Except.error e => ["Error in custom alert handler: " ++ e]

/-- What `triggerAlert` did: which channels ran and the error lines logged. -/
structure ChannelTrace where
  consoleRan : Bool
  webhookAttempted : Bool
  handlerAttempted : Bool
  errorLogs : List String
deriving DecidableEq

/-- Embedding of `AlertManager.triggerAlert`: console logging (synchronous,
non-throwing), then `await sendWebhook` — NOT wrapped in a catch here, so
a rejection from it would propagate through the first `error` branch —
then the custom handler inside its own `try`/`catch`. -/
def triggerAlert (o : AlertingOptions) (fo : FetchOutcome)
    (ho : Except String Unit) : Except String ChannelTrace :=
  match (if o.webhookUrl ≠ "" then sendWebhook o.webhookUrl fo
         else Except.ok []) with
  | Except.error e => Except.error e
  | Except.ok webhookLogs =>
    match (if o.hasHandler then Except.ok (handlerAttempt ho)
           else (Except.ok [] : Except String (List String))) with
    | Except.error e => Except.error e
    | Except.ok handlerLogs =>
      Except.ok { consoleRan := o.consoleLog,
                  webhookAttempted := decide (o.webhookUrl ≠ ""),
                  handlerAttempted := o.hasHandler,
                  errorLogs := webhookLogs ++ handlerLogs }

/-- `recordBreach` with its notification side effects made explicit: the
state update of the breach record plus, when the threshold check fires,
`await this.triggerAlert(...)` before the recent log is cleared. An
`error` result would mean an exception escaped `recordBreach`. -/
def recordBreachFull (m : AlertManager) (k : String) (now : Int)
    (req : Option ReqInfo) (fo : FetchOutcome) (ho : Except String Unit) :
    Except String (AlertManager × Option ChannelTrace) :=
  let record := (alGet m.breaches k).getD
    { count := 0, firstBreach := now, recentBreaches := [] }
  let recent' := record.recentBreaches.filter
    (fun t => decide (now - m.options.windowMs < t)) ++ [now]
  let count' := record.count + 1
  if m.options.threshold ≤ recent'.length then
    match triggerAlert m.options fo ho with
    | Except.error e => Except.error e
    | Except.ok tr =>
      let record' : BreachRecord :=
        { count := count', firstBreach := record.firstBreach, recentBreaches := [] }
      Except.ok ({ m with breaches := alSet m.breaches k record' }, some tr)
  else
    let record' : BreachRecord :=
      { count := count', firstBreach := record.firstBreach, recentBreaches := recent' }
    Except.ok ({ m with breaches := alSet m.breaches k record' }, none)

/-- The error lines `sendWebhook` logs for a given outcome. -/
def webhookLogOf (url : String) (fo : FetchOutcome) : List String :=
  if url = "" then []
  else
    match webhookFetch fo with
    | Except.ok _ => []
    | Except.error e => ["Error sending webhook alert: " ++ e]

/-- The trace `triggerAlert` produces for given options and outcomes. -/
def alertTrace (o : AlertingOptions) (fo : FetchOutcome)
    (ho : Except String Unit) : ChannelTrace :=
  { consoleRan := o.consoleLog,
    webhookAttempted := decide (o.webhookUrl ≠ ""),
    handlerAttempted := o.hasHandler,
    errorLogs := (if o.webhookUrl ≠ "" then webhookLogOf o.webhookUrl fo else [])
      ++ (if o.hasHandler then handlerAttempt ho else []) }

theorem sendWebhook_ok (url : String) (fo : FetchOutcome) :
    sendWebhook url fo = Except.ok (webhookLogOf url fo) := by
  unfold sendWebhook webhookLogOf
  by_cases h : url = ""
  · simp [h]
  · simp only [h, if_neg]
    cases webhookFetch fo <;> simp

theorem triggerAlert_ok (o : AlertingOptions) (fo : FetchOutcome)
    (ho : Except String Unit) :
    triggerAlert o fo ho = Except.ok (alertTrace o fo ho) := by
  unfold triggerAlert alertTrace
  by_cases h1 : o.webhookUrl = "" <;> by_cases h2 : o.hasHandler <;>
    simp [h1, h2, sendWebhook_ok]

/-- C4: `recordBreach` never propagates a failure from its notification
channels: for every webhook outcome (rejection or non-2xx response) and
every custom-handler outcome (including a thrown/rejected error), the
effectful `recordBreachFull` returns normally with exactly the state the
pure `recordBreach` computes, and the trace of a fired alert shows the
console, webhook and handler channels each attempted according to the
options alone — a failing webhook does not suppress the handler and a
throwing handler does not suppress the console/webhook channels. -/
theorem recordBreach_never_propagates (m : AlertManager) (k : String)
    (now : Int) (req : Option ReqInfo) (fo : FetchOutcome)
    (ho : Except String Unit) :
    recordBreachFull m k now req fo ho
      = Except.ok ((recordBreach m k now req).1,
          ((recordBreach m k now req).2).map (fun _ => alertTrace m.options fo ho)) ∧
    (alertTrace m.options fo ho).consoleRan = m.options.consoleLog ∧
    (alertTrace m.options fo ho).webhookAttempted = decide (m.options.webhookUrl ≠ "") ∧
    (alertTrace m.options fo ho).handlerAttempted = m.options.hasHandler := by
  refine ⟨?_, rfl, rfl, rfl⟩
  simp only [recordBreachFull, recordBreach, triggerAlert_ok]
  split <;> rfl

/-- Value of a non-empty all-digit character list, `none` otherwise. -/
def digitsToNat? (cs : List Char) : Option Nat :=
  if cs ≠ [] ∧ cs.all Char.isDigit then
    some (cs.foldl (fun acc c => acc * 10 + (c.toNat - 48)) 0)
  else none

/-- Modelled from the spec: the external `ms` package (a dependency whose
source is not part of this repository) is described in the spec as "a
small shorthand grammar: an integer immediately followed by one unit
letter from \x7bs, m, h, d\x7d"; it returns the parsed duration in
milliseconds and `undefined` (here `none`) for any string the grammar
does not accept. -/
def msParse (t : String) : Option Nat :=
  match t.data.reverse with
  | [] => none
  | u :: revDigits =>
    match digitsToNat? revDigits.reverse with
    | none => none
    | some n =>
      if u = 's' then some (n * 1000)
      else if u = 'm' then some (n * 60000)
      else if u = 'h' then some (n * 3600000)
      else if u = 'd' then some (n * 86400000)
      else none

/-- Embedding of `parseMs` from src/src/utils/parse-ms.ts: a string input
is passed straight to `ms`, so an unparseable string yields `undefined`
(`none`, despite the declared `number` return type); a numeric input is
returned unchanged. -/
def parseMs (time : Sum String Nat) : Option Nat :=
  match time with
  | Sum.inl s => msParse s
  | Sum.inr n => some n

/-- Embedding of the `parseMs` variant in the unnamed utils module (the one
`AlertManager` imports): when `ms` does not return a number the function
returns 0. -/
def parseMs' (time : Sum String Nat) : Nat :=
  match time with
  | Sum.inl s =>
    match msParse s with
    | some n => n
    | none => 0
  | Sum.inr n => n

/-- The `AlertManager` variant of `parseMs` returns 0 for every string the
grammar rejects: the zero is silent, indistinguishable from a parsed 0ms. -/
theorem parseMs_zero_of_unparsed (str : String) (h : msParse str = none) :
    parseMs' (Sum.inl str) = 0 := by
  simp [parseMs', h]

/-- C7 fails on the code: "xyz" is rejected by the shorthand grammar
(`msParse` yields `none`), yet the `parseMs` variant used by
`AlertManager` silently returns 0 for it (as it does for every rejected
string, see `parseMs_zero_of_unparsed`), while the utils variant yields
`undefined`; neither yields a defined parse failure or a documented
default. -/
theorem parseMs_silent_zero :
    msParse "xyz" = none ∧
    parseMs' (Sum.inl "xyz") = 0 ∧
    parseMs (Sum.inl "xyz") = none := by
  refine ⟨by decide, by decide, by decide⟩

end NextLimitr
